import Mathlib

/-!
Verification development for the tournament-result mail-magazine app
(src/app.py).  The parsing and merge core of the Python program is
shallowly embedded below: strings are processed as lists of characters,
the ad-hoc regular expressions of the source are translated into
deterministic character-list matchers (the relevant regexes are
backtracking-free on the stripped, newline-free lines they are applied
to, which is argued case by case in the comments), and the mutating
merge engine is rendered as a pure transformation on the state value.

Modelling conventions:
  * Python's Unicode whitespace (for str.strip and the regex class \s)
    is modelled by the set {space, tab, CR, LF, U+3000 ideographic
    space}; these are the only whitespace characters the app's inputs
    can contain after its own normalisation step.
  * Python's \d (Unicode decimal digit) is modelled by ASCII 0-9; the
    parser normalises full-width digits to ASCII before any matching.
-/

/-- Whitespace as stripped by Python's str.strip and matched by \s,
restricted to the characters relevant to this app (ASCII whitespace and
the ideographic space U+3000). -/
def isSpaceChar (c : Char) : Bool :=
  c = ' ' || c = '\t' || c = '\r' || c = '\n' || c = '　'

/-- Remove trailing whitespace (Python str.rstrip). -/
def rstripL : List Char → List Char
  | [] => []
  | c :: cs =>
    let r := rstripL cs
    if r = [] ∧ isSpaceChar c then [] else c :: r

/-- Remove leading and trailing whitespace (Python str.strip). -/
def pstrip (l : List Char) : List Char :=
  rstripL (l.dropWhile isSpaceChar)

/-- Split a character list on a separator character, Python str.split
with a one-character separator: "".split(sep) gives [""], and empty
fields are kept. -/
def splitOnChar (sep : Char) : List Char → List (List Char)
  | [] => [[]]
  | c :: cs =>
    let r := splitOnChar sep cs
    if c = sep then [] :: r
    else
      match r with
      | [] => [[c]]
      | h :: t => (c :: h) :: t

/-- Maximal runs of ASCII digits, as re.findall with a digit-run
pattern extracts them; the accumulator holds the current run reversed. -/
def digitRunsAux : List Char → List Char → List (List Char)
  | [], acc => if acc = [] then [] else [acc.reverse]
  | c :: cs, acc =>
    if c.isDigit then digitRunsAux cs (c :: acc)
    else if acc = [] then digitRunsAux cs []
    else acc.reverse :: digitRunsAux cs []

def digitRuns (l : List Char) : List (List Char) :=
  digitRunsAux l []

/-- Decimal value of a digit run (Python int). -/
def natOfDigits (ds : List Char) : Nat :=
  ds.foldl (fun n c => 10 * n + (c.toNat - 48)) 0

/-- Rewrites performed by normalize_zenkaku, in the source's order:
full-width digits, full-width solidus / space / parentheses, and the
minus variants (the ASCII hyphen maps to itself). -/
def normPairs : List (Char × Char) :=
  [('０', '0'), ('１', '1'), ('２', '2'), ('３', '3'), ('４', '4'),
   ('５', '5'), ('６', '6'), ('７', '7'), ('８', '8'), ('９', '9'),
   ('／', '/'), ('　', ' '), ('（', '('), ('）', ')'),
   ('－', '-'), ('−', '-'), ('―', '-'), ('–', '-'), ('—', '-'), ('‐', '-'), ('-', '-')]

/-- Characters rewritten by normalize_zenkaku. -/
def normKeys : List Char :=
  normPairs.map Prod.fst

/-- Character-level action of normalize_zenkaku.  The source performs a
translate of the full-width digits followed by single-character
replaces; since every replacement output is a fixed point of all the
later replacements, the sequential passes coincide with this single
character map. -/
def normChar (c : Char) : Char :=
  match normPairs.find? (fun p => p.1 = c) with
  | some p => p.2
  | none => c

/-- normalize_zenkaku from src/app.py (the empty-string early return is
the identity on the empty string, so the character map covers it). -/
def normalize_zenkaku (s : String) : String :=
  ⟨s.data.map normChar⟩

/-- did_home_team_win from src/app.py: normalise, split the score on
the solidus, and for each set compare the first two digit runs; sets
with fewer than two digit runs are skipped; the result is a strict
comparison of the set counters. -/
def did_home_team_win (score : String) : Bool :=
  let s := (normalize_zenkaku score).data
  let sets := splitOnChar '/' s
  let counts := sets.foldl
    (fun (hw : Nat × Nat) st =>
      match digitRuns st with
      | a :: b :: _ =>
        if natOfDigits a > natOfDigits b then (hw.1 + 1, hw.2) else (hw.1, hw.2 + 1)
      | _ => hw)
    (0, 0)
  decide (counts.1 > counts.2)

/-!
Individual-results parser (HEADER_RE, SCORE_RE, parse_score_line,
parse_daily_results).
-/

/-- Consume an expected run of characters from the front of a list,
returning the remainder on success (used to match the fixed literal
alternatives of the source's regexes). -/
def dropStart : List Char → List Char → Option (List Char)
  | [], l => some l
  | _, [] => none
  | p :: ps, c :: cs => if c = p then dropStart ps cs else none

/-- Character class of SCORE_RE's score group. -/
def scoreChars : List Char :=
  ['0', '1', '2', '3', '4', '5', '6', '7', '8', '9',
   '０', '１', '２', '３', '４', '５', '６', '７', '８', '９',
   '-', '/', '／', '(', ')', '（', '）', '－', '−', 'ー', '―']

/-- Character class of parse_score_line's fallback check. -/
def fallbackChars : List Char :=
  ['0', '1', '2', '3', '4', '5', '6', '7', '8', '9', '-', '/', '(', ')']

/-- parse_score_line from src/app.py.  The strict branch is SCORE_RE:
a nonempty run of score characters, then mandatory whitespace, then a
nonempty remainder; because the score class contains no whitespace the
greedy run is deterministic, and because the function strips its input
first the remainder never consists of whitespace alone.  The fallback
splits at the first whitespace run and accepts a left token holding a
digit and only ASCII score punctuation. -/
def parse_score_line (score_line : List Char) : Option (List Char × List Char) :=
  let s := pstrip score_line
  if s = [] then none
  else
    let p := s.takeWhile (fun c => decide (c ∈ scoreChars))
    let rest := s.dropWhile (fun c => decide (c ∈ scoreChars))
    let w := rest.takeWhile isSpaceChar
    let opp := rest.dropWhile isSpaceChar
    if p ≠ [] ∧ w ≠ [] ∧ opp ≠ [] then some (p, opp)
    else
      let left := s.takeWhile (fun c => !isSpaceChar c)
      let right := (s.dropWhile (fun c => !isSpaceChar c)).dropWhile isSpaceChar
      if right ≠ [] ∧ left.any Char.isDigit ∧ left.all (fun c => decide (c ∈ fallbackChars)) then
        some (left, right)
      else none

/-- Stage alternatives of HEADER_RE, tried in the regex's order. -/
def stageTail (r : List Char) : Option (String × List Char) :=
  let r1 := r.dropWhile isSpaceChar
  match dropStart ("本戦".data) r1 with
  | some r2 => some ("本戦", r2)
  | none =>
    match dropStart ("予選".data) r1 with
    | some r2 => some ("予選", r2)
    | none => none

/-- Category alternatives of HEADER_RE, tried in the regex's order. -/
def categoryTail (l1 : List Char) : Option (String × List Char) :=
  match dropStart ("男子シングルス".data) l1 with
  | some r => some ("男子シングルス", r)
  | none =>
    match dropStart ("男子ダブルス".data) l1 with
    | some r => some ("男子ダブルス", r)
    | none =>
      match dropStart ("女子シングルス".data) l1 with
      | some r => some ("女子シングルス", r)
      | none =>
        match dropStart ("女子ダブルス".data) l1 with
        | some r => some ("女子ダブルス", r)
        | none => none

/-- HEADER_RE from src/app.py, applied to stripped lines: an optional
run of marker glyphs and whitespace, one of the four category names,
optional whitespace, a mandatory stage tag, and a nonempty round label
(the lazy round group with the trailing whitespace anchor captures the
stripped remainder).  None of the category or stage alternatives is a
prefix of another, and the categories start with characters outside the
marker class, so the regex is deterministic here. -/
def headerMatch (l : List Char) : Option (String × String × String) :=
  let l1 := l.dropWhile (fun c => c = '◆' || c = '◇' || isSpaceChar c)
  match categoryTail l1 with
  | none => none
  | some (cat, r) =>
    match stageTail r with
    | none => none
    | some (stage, r2) =>
      let round := pstrip r2
      if round = [] then none else some (cat, stage, ⟨round⟩)

structure Block where
  stage : String
  lines : List String
deriving DecidableEq

structure Player where
  name : String
  blocks : List Block
deriving DecidableEq

structure Section where
  category : String
  players : List Player
deriving DecidableEq

/-- Section being accumulated by parse_daily_results: category, stage
and round label from the most recent header, plus the players emitted
so far in order. -/
structure Ctx where
  category : String
  stage : String
  round : String
  players : List Player
deriving DecidableEq

def closeCtx : Option Ctx → List Section
  | none => []
  | some ctx => [⟨ctx.category, ctx.players⟩]

/-- Round-line string f"{round} {score} {opp}" of parse_daily_results. -/
def mkRoundLine (round : String) (sc opp : List Char) : String :=
  round ++ " " ++ (⟨sc⟩ : String) ++ " " ++ (⟨opp⟩ : String)

def addPlayer (ctx : Ctx) (name : List Char) (sc opp : List Char) : Ctx :=
  { ctx with
    players := ctx.players ++
      [⟨⟨name⟩, [⟨ctx.stage, [mkRoundLine ctx.round sc opp]⟩]⟩] }

/-- Loop body of parse_daily_results over the prepared line list.  The
outer state is the optional open section; on a header the open section
is emitted and a fresh one opened; inside a section, a name line and
the following line are consumed as a pair when the second parses as a
score line, otherwise the cursor advances a single line (the resync
rule); a section at the very end closes when fewer than two lines
remain. -/
def pdrAux : Option Ctx → List (List Char) → List Section
  | cur, [] => closeCtx cur
  | cur, [ln] =>
    match headerMatch ln with
    | some (cat, stage, round) => closeCtx cur ++ closeCtx (some ⟨cat, stage, round, []⟩)
    | none => closeCtx cur
  | cur, ln :: ln2 :: rest2 =>
    match headerMatch ln with
    | some (cat, stage, round) =>
      closeCtx cur ++ pdrAux (some ⟨cat, stage, round, []⟩) (ln2 :: rest2)
    | none =>
      match cur with
      | none => pdrAux none (ln2 :: rest2)
      | some ctx =>
        match parse_score_line ln2 with
        | some (sc, opp) => pdrAux (some (addPlayer ctx ln sc opp)) rest2
        | none => pdrAux (some ctx) (ln2 :: rest2)

/-- Line preparation of parse_daily_results: split on newlines, strip,
drop blank lines, then normalise (CRLF handling is subsumed by the
strip, which removes a trailing CR). -/
def prepLines (text : String) : List (List Char) :=
  ((splitOnChar '\n' text.data).map pstrip).filter (fun l => l ≠ []) |>.map (List.map normChar)

/-- parse_daily_results from src/app.py. -/
def parse_daily_results (text : String) : List Section :=
  pdrAux none (prepLines text)

/-- Number of prepared lines matching HEADER_RE. -/
def headerLineCount (text : String) : Nat :=
  (prepLines text).countP (fun l => (headerMatch l).isSome)

/-!
Team-results parser (TEAM_HEADER_RE, TEAM_LINE_RE, did_home_team_win's
callers, parse_team_report).
-/

inductive Gender where
  | mens
  | womens
deriving DecidableEq

/-- One entry of a team bucket's "lines" list: a free-text note or a
parsed match row (the source also stores a derived "display" pair,
recomputable from the other fields, which is omitted here). -/
inductive TeamRec where
  | note (text : String)
  | mtch (slot team score opp : String)
deriving DecidableEq

structure TeamBlock where
  title : String
  lines : List TeamRec
deriving DecidableEq

structure TeamReport where
  mens : TeamBlock
  womens : TeamBlock
deriving DecidableEq

def TeamReport.get (r : TeamReport) : Gender → TeamBlock
  | .mens => r.mens
  | .womens => r.womens

def TeamReport.set (r : TeamReport) : Gender → TeamBlock → TeamReport
  | .mens, b => { r with mens := b }
  | .womens, b => { r with womens := b }

/-- TEAM_HEADER_RE on a stripped line: the bracketed gender marker and
a nonempty trimmed title. -/
def teamHeaderMatch (l : List Char) : Option (Gender × String) :=
  match dropStart ("【男子】".data) l with
  | some r => if pstrip r = [] then none else some (Gender.mens, ⟨pstrip r⟩)
  | none =>
    match dropStart ("【女子】".data) l with
    | some r => if pstrip r = [] then none else some (Gender.womens, ⟨pstrip r⟩)
    | none => none

/-- Character class of TEAM_LINE_RE's score group. -/
def teamScoreChars : List Char :=
  ['0', '1', '2', '3', '4', '5', '6', '7', '8', '9',
   '０', '１', '２', '３', '４', '５', '６', '７', '８', '９',
   '-', '/', '／', '(', ')', '（', '）', '－', '−', '―', '–', '—', '‐', 'ー']

/-- Search for the body decomposition of TEAM_LINE_RE after the slot:
the lazy team group grows character by character, and at each whitespace
boundary the engine commits to a maximal whitespace run, a maximal
nonempty score-class run, another whitespace run, and a nonempty
remainder as the opponent (shrinking the greedy runs can never help
since the score class contains no whitespace, and the trailing lazy
opponent group together with the end anchor captures the whole
remainder of the stripped line). -/
def teamSplit (acc : List Char) : List Char → Option (List Char × List Char × List Char)
  | [] => none
  | c :: rest =>
    if isSpaceChar c ∧ acc ≠ [] then
      let r2 := (c :: rest).dropWhile isSpaceChar
      let score := r2.takeWhile (fun ch => decide (ch ∈ teamScoreChars))
      let r3 := r2.dropWhile (fun ch => decide (ch ∈ teamScoreChars))
      let w3 := r3.takeWhile isSpaceChar
      let opp := r3.dropWhile isSpaceChar
      if score ≠ [] ∧ w3 ≠ [] ∧ opp ≠ [] then some (acc.reverse, score, opp)
      else teamSplit (c :: acc) rest
    else teamSplit (c :: acc) rest

/-- TEAM_LINE_RE on a stripped line: a slot id (D or S plus a digit),
mandatory whitespace, then the team/score/opponent decomposition. -/
def teamLineMatch (l : List Char) : Option (String × String × String × String) :=
  match l with
  | c1 :: c2 :: rest =>
    if (c1 = 'D' ∨ c1 = 'S') ∧ c2.isDigit ∧ rest.takeWhile isSpaceChar ≠ [] then
      match teamSplit [] (rest.dropWhile isSpaceChar) with
      | some (team, score, opp) =>
        some (⟨[c1, c2]⟩, ⟨pstrip team⟩, ⟨pstrip score⟩, ⟨pstrip opp⟩)
      | none => none
    else none
  | _ => none

/-- compute_team_score from src/app.py: count match rows with a
nonempty score by did_home_team_win (note rows are skipped). -/
def compute_team_score (lines : List TeamRec) : Nat × Nat :=
  lines.foldl
    (fun (ha : Nat × Nat) r =>
      match r with
      | .note _ => ha
      | .mtch _ _ score _ =>
        if score = "" then ha
        else if did_home_team_win score then (ha.1 + 1, ha.2) else (ha.1, ha.2 + 1))
    (0, 0)

/-- build_final_line from src/app.py with the default home name. -/
def build_final_line (home away : Nat) : String :=
  if home > away then
    "計" ++ toString home ++ "-" ++ toString away ++ "を持ちまして、慶應義塾大学の勝ちが決定致しました。"
  else if home < away then
    "計" ++ toString away ++ "-" ++ toString home ++ "を持ちまして、相手校の勝ちが決定致しました。"
  else
    "計" ++ toString home ++ "-" ++ toString away ++ "の引き分けとなりました。"

/-- append_team_final_line from src/app.py: a no-op on a bucket with no
lines, otherwise append the verdict note for the bucket's match rows. -/
def append_team_final_line (b : TeamBlock) : TeamBlock :=
  if b.lines = [] then b
  else
    let s := compute_team_score b.lines
    { b with lines := b.lines ++ [TeamRec.note (build_final_line s.1 s.2)] }

/-- Display form of a score in a match row: hyphen to full-width minus
and solidus to full-width solidus. -/
def scoreDisp (s : String) : String :=
  ⟨s.data.map (fun c => if c = '-' then '－' else if c = '/' then '／' else c)⟩

structure TeamState where
  out : TeamReport
  current : Option Gender
deriving DecidableEq

def closeBucket (out : TeamReport) (g : Gender) : TeamReport :=
  out.set g (append_team_final_line (out.get g))

def addTeamRec (st : TeamState) (g : Gender) (r : TeamRec) : TeamState :=
  { st with out := st.out.set g { st.out.get g with lines := (st.out.get g).lines ++ [r] } }

/-- Record built from a non-header line in an open bucket: a match row
when TEAM_LINE_RE matches (with the display form of the score),
otherwise a verbatim note. -/
def recOf (ln : List Char) : TeamRec :=
  match teamLineMatch ln with
  | some (slot, team, score, opp) => TeamRec.mtch slot team (scoreDisp score) opp
  | none => TeamRec.note ⟨ln⟩

/-- Loop body of parse_team_report: blank lines are skipped; a header
closes the open bucket (appending its verdict) and opens the named one,
setting its title; other lines are recorded in the open bucket as a
match row or a verbatim note, and dropped when no bucket is open. -/
def teamStep (st : TeamState) (ln : List Char) : TeamState :=
  if ln = [] then st
  else
    match teamHeaderMatch ln with
    | some (g, title) =>
      let out1 :=
        match st.current with
        | some g0 => closeBucket st.out g0
        | none => st.out
      ⟨out1.set g { out1.get g with title := title }, some g⟩
    | none =>
      match st.current with
      | none => st
      | some g => addTeamRec st g (recOf ln)

/-- Line preparation of parse_team_report: rstrip then normalise then
strip; since the normalisation maps whitespace to whitespace and
nothing else into whitespace, this equals stripping the normalised
line. -/
def prepTeamLines (text : String) : List (List Char) :=
  (splitOnChar '\n' text.data).map (fun l => pstrip (l.map normChar))

def initTeamState : TeamState :=
  ⟨⟨⟨"", []⟩, ⟨"", []⟩⟩, none⟩

def finishTeam (st : TeamState) : TeamReport :=
  match st.current with
  | some g => closeBucket st.out g
  | none => st.out

/-- parse_team_report from src/app.py. -/
def parse_team_report (text : String) : TeamReport :=
  finishTeam ((prepTeamLines text).foldl teamStep initTeamState)

/-!
Merge engine (merge_into_state).  The source mutates the state's
section list through maps indexed by category and name; the dict
comprehensions bind each key to its last occurrence and the block
lookup uses the first matching stage, so the pure rendering updates the
last section of a category, the last player of a name, and the first
block of a stage, appending fresh entries at the end otherwise.
-/

/-- Inner loop over a daily block's lines: append each line not yet
present, preserving arrival order. -/
def mergeLines (acc new : List String) : List String :=
  new.foldl (fun a ln => if ln ∈ a then a else a ++ [ln]) acc

/-- Merge one daily block into a player's block list: the first block
with the same stage receives the new lines, and a fresh block is
appended when the stage is new. -/
def updateFirstBlock : List Block → Block → List Block
  | [], db => [⟨db.stage, mergeLines [] db.lines⟩]
  | b :: bs, db =>
    if b.stage = db.stage then ⟨b.stage, mergeLines b.lines db.lines⟩ :: bs
    else b :: updateFirstBlock bs db

/-- Merge one daily player into a section's player list: the last
player with the same name receives the daily blocks, and a fresh
player is appended when the name is new. -/
def updLastPlayer : List Player → Player → List Player
  | [], dp => [⟨dp.name, dp.blocks.foldl updateFirstBlock []⟩]
  | p :: ps, dp =>
    if p.name = dp.name ∧ ∀ q ∈ ps, q.name ≠ dp.name then
      ⟨p.name, dp.blocks.foldl updateFirstBlock p.blocks⟩ :: ps
    else p :: updLastPlayer ps dp

/-- Merge one daily section into the state's section list: the last
section with the same category receives the daily players, and a fresh
section is appended when the category is new. -/
def updLastSection : List Section → Section → List Section
  | [], ds => [⟨ds.category, ds.players.foldl updLastPlayer []⟩]
  | s :: ss, ds =>
    if s.category = ds.category ∧ ∀ t ∈ ss, t.category ≠ ds.category then
      ⟨s.category, ds.players.foldl updLastPlayer s.players⟩ :: ss
    else s :: updLastSection ss ds

/-- merge_into_state from src/app.py, restricted to the sections field
it reads and writes. -/
def merge_into_state (state : List Section) (daily_sections : List Section) : List Section :=
  daily_sections.foldl updLastSection state

/-!
Specification-side definitions, written from the spec's words for the
refutation and refinement comparisons below; they are not translations
of the source.
-/

/-- Remove parenthesised segments (state: inside parentheses or not). -/
def stripParensAux : Bool → List Char → List Char
  | _, [] => []
  | false, c :: r =>
    if c = '(' then stripParensAux true r else c :: stripParensAux false r
  | true, c :: r =>
    if c = ')' then stripParensAux false r else stripParensAux true r

def stripParens (l : List Char) : List Char :=
  stripParensAux false l

/-- Modelled from the spec: the score-reading step as the spec states
it, with the parenthesised tiebreak detail actually ignored: each set's
home and away games are the first two digit runs of the set token with
its parenthesised segments removed; everything else is as in
did_home_team_win. -/
def did_home_team_win_ignoring_parens (score : String) : Bool :=
  let s := (normalize_zenkaku score).data
  let sets := splitOnChar '/' s
  let counts := sets.foldl
    (fun (hw : Nat × Nat) st =>
      match digitRuns (stripParens st) with
      | a :: b :: _ =>
        if natOfDigits a > natOfDigits b then (hw.1 + 1, hw.2) else (hw.1, hw.2 + 1)
      | _ => hw)
    (0, 0)
  decide (counts.1 > counts.2)

/-- Collecting variant of the team parser, written from the spec's
words for the close-out comparison: identical to parse_team_report
except that no bucket is ever closed, so each bucket holds exactly the
records of its own input section. -/
def collectStep (st : TeamState) (ln : List Char) : TeamState :=
  if ln = [] then st
  else
    match teamHeaderMatch ln with
    | some (g, title) =>
      ⟨st.out.set g { st.out.get g with title := title }, some g⟩
    | none =>
      match st.current with
      | none => st
      | some g => addTeamRec st g (recOf ln)

def collect_team_report (text : String) : TeamReport :=
  ((prepTeamLines text).foldl collectStep initTeamState).out

/-- Spec-side close-out: append the verdict note exactly once to each
bucket that holds at least one record. -/
def closeBuckets (r : TeamReport) : TeamReport :=
  ⟨append_team_final_line r.mens, append_team_final_line r.womens⟩

/-- Line test for a gender's header. -/
def isTeamHeaderOf (g : Gender) (l : List Char) : Bool :=
  match teamHeaderMatch l with
  | some (g', _) => g' = g
  | none => false

/-- Count of a gender's header lines in the prepared team input. -/
def genderHeaderCount (g : Gender) (text : String) : Nat :=
  (prepTeamLines text).countP (isTeamHeaderOf g)

/-- Shape of a player entry produced by parse_daily_results: exactly
one block, tagged with the section's stage, holding exactly one line of
the form round, score and opponent joined by single spaces. -/
def PlayerShape (stage round : String) (p : Player) : Prop :=
  ∃ sc opp : String, p.blocks = [⟨stage, [round ++ " " ++ sc ++ " " ++ opp]⟩]


abbrev BlocksNodup (bs : List Block) : Prop := ∀ b ∈ bs, b.lines.Nodup

abbrev PlayersNodup (ps : List Player) : Prop := ∀ p ∈ ps, BlocksNodup p.blocks

abbrev StateNodup (ss : List Section) : Prop := ∀ s ∈ ss, PlayersNodup s.players


/-- Size measure on block lists: number of blocks plus total lines. -/
def muB (bs : List Block) : Nat :=
  bs.length + (bs.map (fun b => b.lines.length)).sum


/-- Size measure on player lists: number of players plus the block
measures. -/
def muP (ps : List Player) : Nat :=
  ps.length + (ps.map (fun p => muB p.blocks)).sum


/-!
Theorems.  Lemmas about the normaliser first.
-/

lemma normChar_eq_of_not_mem (c : Char) (hc : c ∉ normKeys) : normChar c = c := by
  have h : normPairs.find? (fun p => p.1 = c) = none := by
    rw [List.find?_eq_none]
    intro p hp
    simp only [decide_eq_true_eq]
    intro e
    exact hc (e ▸ List.mem_map_of_mem Prod.fst hp)
  unfold normChar
  rw [h]

lemma normChar_snd_fixed : ∀ p ∈ normPairs, normChar p.2 = p.2 := by decide

lemma normChar_fix (c : Char) : normChar (normChar c) = normChar c := by
  cases h : normPairs.find? (fun p => p.1 = c) with
  | none =>
    have e : normChar c = c := by unfold normChar; rw [h]
    rw [e]
    exact e
  | some p =>
    have e : normChar c = p.2 := by unfold normChar; rw [h]
    rw [e]
    exact normChar_snd_fixed p (List.mem_of_find?_eq_some h)

/-- Claim C8: normalize_zenkaku is idempotent, leaves the long-vowel
mark unchanged (in particular on a name containing it), maps the
full-width digits, solidus, space, parentheses and every dash/minus
variant to their ASCII forms, and alters no character outside that
set. -/
theorem normalize_zenkaku_spec :
    (∀ s : String, normalize_zenkaku (normalize_zenkaku s) = normalize_zenkaku s) ∧
    normalize_zenkaku "ラーメン" = "ラーメン" ∧
    normChar 'ー' = 'ー' ∧
    normalize_zenkaku "０１２３４５６７８９／　（）－−―–—‐-" = "0123456789/ ()-------" ∧
    (∀ c : Char, c ∉ normKeys → normChar c = c) := by
  refine ⟨fun s => ?_, by decide, by decide, by decide, fun c hc => normChar_eq_of_not_mem c hc⟩
  show (⟨(s.data.map normChar).map normChar⟩ : String) = ⟨s.data.map normChar⟩
  rw [List.map_map]
  exact congrArg String.mk (List.map_congr_left fun c _ => normChar_fix c)

/-- Witness for C8: a character outside the rewritten set is left
unchanged. -/
theorem normalize_zenkaku_spec_witness : 'あ' ∉ normKeys ∧ normChar 'あ' = 'あ' :=
  ⟨by decide, normalize_zenkaku_spec.2.2.2.2 'あ' (by decide)⟩

/-- Claim C7: the score 6-3/6-2 is a home-side win and the score
4-6/6(4)-7 is an away-side win. -/
theorem did_home_team_win_examples :
    did_home_team_win "6-3/6-2" = true ∧ did_home_team_win "4-6/6(4)-7" = false := by
  decide

/-- Claim C4: evaluation at the failing input.  The code does not strip
the parenthesised tiebreak before extracting digit runs, so for the set
6(4)-7 the first two digit runs are 6 and 4 and the set (and the
one-set match) is credited to the home side, where the claim (and the
source's own inline comment, which states that the digit extraction on
6(3)-7 yields 6 and 7) requires the tiebreak digits to be ignored,
reading 6 against 7 and crediting the away side. -/
theorem did_home_team_win_tiebreak_divergence :
    did_home_team_win "6(4)-7" = true ∧
    did_home_team_win_ignoring_parens "6(4)-7" = false ∧
    digitRuns ("6(4)-7".data) = [['6'], ['4'], ['7']] := by
  decide

/-- Claim C9: on the four-line resync input the malformed line is
skipped (advancing one line, not two) and exactly one player with
exactly one round line is produced. -/
theorem parse_daily_results_resync_example :
    parse_daily_results "◆男子シングルス本戦1R\n不正な行\n選手A\n6-2/6-3 対戦相手(大学)" =
      [⟨"男子シングルス",
        [⟨"選手A", [⟨"本戦", ["1R 6-2/6-3 対戦相手(大学)"]⟩]⟩]⟩] := by
  decide

/-- Counterexample to claim C5: two consecutive headers with the same
category yield two category entries for that category, not one. -/
theorem duplicate_header_counterexample :
    ((parse_daily_results "◆男子シングルス本戦1R\n◆男子シングルス本戦2R").countP
        (fun s => s.category = "男子シングルス")) = 2 ∧
    ¬ ((parse_daily_results "◆男子シングルス本戦1R\n◆男子シングルス本戦2R").countP
        (fun s => s.category = "男子シングルス")) = 1 := by
  decide

/-- Claim C5 as amended: a header whose category equals the preceding
header's category is not treated as a continuation; every header line
opens its own category entry, so the batch holds one entry per header
(duplicate categories included), and category-level de-duplication
happens only later, in merge_into_state. -/
theorem duplicate_header_amended :
    parse_daily_results "◆男子シングルス本戦1R\n◆男子シングルス本戦2R" =
      [⟨"男子シングルス", []⟩, ⟨"男子シングルス", []⟩] ∧
    merge_into_state []
        (parse_daily_results "◆男子シングルス本戦1R\n◆男子シングルス本戦2R") =
      [⟨"男子シングルス", []⟩] := by
  decide

/-- Counterexample to claim C6: a name appearing twice in one section
produces two player entries with the same name, so the player list of a
category entry is not de-duplicated by name. -/
theorem player_dedup_counterexample :
    ¬ (∀ sec ∈ parse_daily_results "◆男子シングルス本戦1R\n選手A\n6-2 相手\n選手A\n6-3 相手",
        (sec.players.map Player.name).Nodup) := by
  decide

/-!
Lemmas for C10: a line matched by HEADER_RE never parses as a score
line, so the pair-consuming inner loop cannot swallow a header, and the
parser emits exactly one section per header line.
-/

lemma dropStart_head {p : Char} {ps l r : List Char} (h : dropStart (p :: ps) l = some r) :
    ∃ t, l = p :: t := by
  cases l with
  | nil => exact Option.noConfusion h
  | cons c cs =>
    by_cases e : c = p
    · exact ⟨cs, by rw [e]⟩
    · rw [show dropStart (p :: ps) (c :: cs) = if c = p then dropStart ps cs else none from rfl,
        if_neg e] at h
      exact Option.noConfusion h

lemma categoryTail_head {l : List Char} {pr : String × List Char}
    (h : categoryTail l = some pr) : ∃ t, l = '男' :: t ∨ l = '女' :: t := by
  unfold categoryTail at h
  rw [show ("男子シングルス".data : List Char) = '男' :: "子シングルス".data from rfl,
    show ("男子ダブルス".data : List Char) = '男' :: "子ダブルス".data from rfl,
    show ("女子シングルス".data : List Char) = '女' :: "子シングルス".data from rfl,
    show ("女子ダブルス".data : List Char) = '女' :: "子ダブルス".data from rfl] at h
  cases e1 : dropStart ('男' :: "子シングルス".data) l with
  | some r => obtain ⟨t, ht⟩ := dropStart_head e1; exact ⟨t, Or.inl ht⟩
  | none =>
    rw [e1] at h
    cases e2 : dropStart ('男' :: "子ダブルス".data) l with
    | some r => obtain ⟨t, ht⟩ := dropStart_head e2; exact ⟨t, Or.inl ht⟩
    | none =>
      rw [e2] at h
      cases e3 : dropStart ('女' :: "子シングルス".data) l with
      | some r => obtain ⟨t, ht⟩ := dropStart_head e3; exact ⟨t, Or.inr ht⟩
      | none =>
        rw [e3] at h
        cases e4 : dropStart ('女' :: "子ダブルス".data) l with
        | some r => obtain ⟨t, ht⟩ := dropStart_head e4; exact ⟨t, Or.inr ht⟩
        | none => rw [e4] at h; exact Option.noConfusion h

lemma rstripL_cons_of_not_space {c : Char} (cs : List Char) (h : isSpaceChar c = false) :
    rstripL (c :: cs) = c :: rstripL cs := by
  show (if rstripL cs = [] ∧ isSpaceChar c = true then [] else c :: rstripL cs) = c :: rstripL cs
  rw [if_neg (by simp [h])]

/-- Heads that the stripped form of a HEADER_RE line can start with. -/
lemma headerMatch_strip_head {l : List Char} {x : String × String × String}
    (hm : headerMatch l = some x) :
    ∃ cs c0, pstrip l = c0 :: cs ∧ c0 ∈ (['◆', '◇', '男', '女'] : List Char) := by
  induction l with
  | nil => exact Option.noConfusion hm
  | cons c cs ih =>
    by_cases hb : (c = '◆' || c = '◇' || isSpaceChar c) = true
    · have hm' : headerMatch cs = some x := by
        unfold headerMatch at hm ⊢
        rwa [List.dropWhile_cons, if_pos hb] at hm
      rcases Bool.or_eq_true_iff.mp hb with hb1 | hws
      · have hc4 : c = '◆' ∨ c = '◇' := by
          rcases Bool.or_eq_true_iff.mp hb1 with h1 | h1 <;>
            simp only [decide_eq_true_eq] at h1
          · exact Or.inl h1
          · exact Or.inr h1
        have hns : isSpaceChar c = false := by rcases hc4 with rfl | rfl <;> decide
        have hps : pstrip (c :: cs) = c :: rstripL cs := by
          unfold pstrip
          rw [List.dropWhile_cons, if_neg (by simp [hns]), rstripL_cons_of_not_space _ hns]
        refine ⟨rstripL cs, c, hps, ?_⟩
        rcases hc4 with rfl | rfl <;> decide
      · obtain ⟨cs', c0, hp, hc0⟩ := ih hm'
        refine ⟨cs', c0, ?_, hc0⟩
        unfold pstrip at hp ⊢
        rwa [List.dropWhile_cons, if_pos hws]
    · have hl1 : (c :: cs).dropWhile (fun ch => ch = '◆' || ch = '◇' || isSpaceChar ch) = c :: cs := by
        rw [List.dropWhile_cons, if_neg hb]
      have hcat : ∃ pr, categoryTail (c :: cs) = some pr := by
        cases e : categoryTail (c :: cs) with
        | some pr => exact ⟨pr, rfl⟩
        | none =>
          exfalso
          unfold headerMatch at hm
          simp only [hl1, e] at hm
          exact Option.noConfusion hm
      obtain ⟨pr, hpr⟩ := hcat
      rcases categoryTail_head hpr with ⟨t, ht | ht⟩
      · injection ht with hc ht2
        subst hc
        refine ⟨rstripL cs, '男', ?_, by decide⟩
        unfold pstrip
        rw [List.dropWhile_cons, if_neg (by decide), rstripL_cons_of_not_space _ (by decide)]
      · injection ht with hc ht2
        subst hc
        refine ⟨rstripL cs, '女', ?_, by decide⟩
        unfold pstrip
        rw [List.dropWhile_cons, if_neg (by decide), rstripL_cons_of_not_space _ (by decide)]

/-- A line whose stripped form starts with a character outside both
score classes and outside whitespace cannot parse as a score line. -/
lemma parse_score_line_head_none {l : List Char} {c0 : Char} {cs0 : List Char}
    (hps : pstrip l = c0 :: cs0)
    (h1 : c0 ∉ scoreChars) (h2 : isSpaceChar c0 = false)
    (h3 : c0 ∉ fallbackChars) :
    parse_score_line l = none := by
  have h1d : decide (c0 ∈ scoreChars) = false := by simp [h1]
  have h3d : decide (c0 ∈ fallbackChars) = false := by simp [h3]
  simp only [parse_score_line, hps]
  rw [if_neg (by simp)]
  rw [if_neg (by rw [List.takeWhile_cons, h1d]; simp)]
  rw [if_neg]
  intro hc
  have hall := hc.2.2
  rw [List.takeWhile_cons] at hall
  rw [h2] at hall
  simp only [Bool.not_false, if_true] at hall
  rw [List.all_cons, h3d] at hall
  simp at hall

/-- Exclusion: HEADER_RE lines are never score lines. -/
lemma header_not_score {l : List Char} {x : String × String × String}
    (hm : headerMatch l = some x) : parse_score_line l = none := by
  obtain ⟨cs, c0, hps, hc0⟩ := headerMatch_strip_head hm
  fin_cases hc0 <;> exact parse_score_line_head_none hps (by decide) (by decide) (by decide)

/-- Section count of the parser loop: one section per header line, plus
the section open on entry. -/
lemma pdrAux_length (cur : Option Ctx) (ls : List (List Char)) :
    (pdrAux cur ls).length =
      (closeCtx cur).length + ls.countP (fun l => (headerMatch l).isSome) := by
  induction cur, ls using pdrAux.induct with
  | case1 cur => simp [pdrAux]
  | case2 cur ln cat stage round hm =>
    simp [pdrAux, hm, List.countP_cons, closeCtx]
  | case3 cur ln hm =>
    simp [pdrAux, hm, List.countP_cons, closeCtx]
  | case4 cur ln ln2 rest2 cat stage round hm ih =>
    simp only [pdrAux, hm]
    rw [List.length_append, ih]
    simp [List.countP_cons, hm, closeCtx]
    omega
  | case5 ln ln2 rest2 hm ih =>
    simp only [pdrAux, hm]
    rw [ih]
    simp [List.countP_cons, hm, closeCtx]
  | case6 ln ln2 rest2 hm ctx sc opp hpsl ih =>
    simp only [pdrAux, hm, hpsl]
    rw [ih]
    have hm2 : headerMatch ln2 = none := by
      cases e : headerMatch ln2 with
      | none => rfl
      | some x => rw [header_not_score e] at hpsl; exact Option.noConfusion hpsl
    simp [List.countP_cons, hm, hm2, closeCtx]
  | case7 ln ln2 rest2 hm ctx hpsl ih =>
    simp only [pdrAux, hm, hpsl]
    rw [ih]
    simp [List.countP_cons, hm, closeCtx]

/-- Claim C10: parse_daily_results emits one category entry per header
line, even when no valid name/score pair follows; in particular a
single valid header followed by unparseable text yields one section
with zero players, not zero sections. -/
theorem parse_daily_results_header_sections :
    (∀ text : String, (parse_daily_results text).length = headerLineCount text) ∧
    parse_daily_results "◆男子シングルス本戦1R\n不正な行" = [⟨"男子シングルス", []⟩] := by
  constructor
  · intro text
    have h := pdrAux_length none (prepLines text)
    simpa [parse_daily_results, headerLineCount, closeCtx] using h
  · decide

/-!
Lemmas for C6: every player entry emitted by the parser carries exactly
one stage block holding exactly one formatted round line.
-/

lemma pdrAux_player_shape (cur : Option Ctx) (ls : List (List Char)) :
    (∀ ctx, cur = some ctx → ∀ p ∈ ctx.players, PlayerShape ctx.stage ctx.round p) →
    ∀ sec ∈ pdrAux cur ls, ∃ st rd, ∀ p ∈ sec.players, PlayerShape st rd p := by
  induction cur, ls using pdrAux.induct with
  | case1 cur =>
    intro hcur sec hsec
    cases cur with
    | none => simp [pdrAux, closeCtx] at hsec
    | some ctx =>
      simp only [pdrAux, closeCtx, List.mem_singleton] at hsec
      subst hsec
      exact ⟨ctx.stage, ctx.round, fun p hp => hcur ctx rfl p hp⟩
  | case2 cur ln cat stage round hm =>
    intro hcur sec hsec
    simp only [pdrAux, hm] at hsec
    rcases List.mem_append.mp hsec with h | h
    · cases cur with
      | none => simp [closeCtx] at h
      | some ctx =>
        simp only [closeCtx, List.mem_singleton] at h
        subst h
        exact ⟨ctx.stage, ctx.round, fun p hp => hcur ctx rfl p hp⟩
    · simp only [closeCtx, List.mem_singleton] at h
      subst h
      exact ⟨stage, round, fun p hp => absurd hp (by simp)⟩
  | case3 cur ln hm =>
    intro hcur sec hsec
    simp only [pdrAux, hm] at hsec
    cases cur with
    | none => simp [closeCtx] at hsec
    | some ctx =>
      simp only [closeCtx, List.mem_singleton] at hsec
      subst hsec
      exact ⟨ctx.stage, ctx.round, fun p hp => hcur ctx rfl p hp⟩
  | case4 cur ln ln2 rest2 cat stage round hm ih =>
    intro hcur sec hsec
    simp only [pdrAux, hm] at hsec
    rcases List.mem_append.mp hsec with h | h
    · cases cur with
      | none => simp [closeCtx] at h
      | some ctx =>
        simp only [closeCtx, List.mem_singleton] at h
        subst h
        exact ⟨ctx.stage, ctx.round, fun p hp => hcur ctx rfl p hp⟩
    · exact ih (by intro ctx hctx p hp; injection hctx with e; rw [← e] at hp; simp at hp) sec h
  | case5 ln ln2 rest2 hm ih =>
    intro hcur sec hsec
    simp only [pdrAux, hm] at hsec
    exact ih (by intro ctx h; exact Option.noConfusion h) sec hsec
  | case6 ln ln2 rest2 hm ctx sc opp hpsl ih =>
    intro hcur sec hsec
    simp only [pdrAux, hm, hpsl] at hsec
    refine ih ?_ sec hsec
    intro ctx' hctx' p hp
    injection hctx' with e
    subst e
    simp only [addPlayer, List.mem_append, List.mem_singleton] at hp
    rcases hp with hp | hp
    · exact hcur ctx rfl p hp
    · subst hp
      exact ⟨⟨sc⟩, ⟨opp⟩, rfl⟩
  | case7 ln ln2 rest2 hm ctx hpsl ih =>
    intro hcur sec hsec
    simp only [pdrAux, hm, hpsl] at hsec
    exact ih hcur sec hsec

/-- Claim C6 as amended: the batch is an ordered list of category
entries; every player entry in a category entry carries exactly one
stage block (tagged with the section's stage) holding exactly one
round line of the form round label, score token and opponent token
joined by single spaces; the player list is however not de-duplicated
by name (see the counterexample), each parsed name/score pair appending
its own entry. -/
theorem parse_daily_results_player_shape :
    ∀ text : String, ∀ sec ∈ parse_daily_results text,
      ∃ st rd, ∀ p ∈ sec.players, PlayerShape st rd p := by
  intro text sec hsec
  exact pdrAux_player_shape none (prepLines text)
    (by intro ctx h; exact Option.noConfusion h) sec hsec

/-- Witness for C6 as amended, at the resync example input. -/
theorem parse_daily_results_player_shape_witness :
    (⟨"男子シングルス", [⟨"選手A", [⟨"本戦", ["1R 6-2/6-3 対戦相手(大学)"]⟩]⟩]⟩ : Section) ∈
      parse_daily_results "◆男子シングルス本戦1R\n不正な行\n選手A\n6-2/6-3 対戦相手(大学)" ∧
    ∃ st rd, ∀ p ∈ (⟨"男子シングルス",
        [⟨"選手A", [⟨"本戦", ["1R 6-2/6-3 対戦相手(大学)"]⟩]⟩]⟩ : Section).players,
      PlayerShape st rd p :=
  ⟨by decide, parse_daily_results_player_shape
    "◆男子シングルス本戦1R\n不正な行\n選手A\n6-2/6-3 対戦相手(大学)" _ (by decide)⟩

/-!
Lemmas for C2: the merge preserves per-block uniqueness of round
lines, and only ever appends to a block's line list.
-/

lemma mergeLines_cons (acc : List String) (ln : String) (rest : List String) :
    mergeLines acc (ln :: rest) = mergeLines (if ln ∈ acc then acc else acc ++ [ln]) rest := rfl

lemma mergeLines_nodup (acc new : List String) (h : acc.Nodup) : (mergeLines acc new).Nodup := by
  induction new generalizing acc with
  | nil => exact h
  | cons ln rest ih =>
    rw [mergeLines_cons]
    by_cases hm : ln ∈ acc
    · rw [if_pos hm]; exact ih _ h
    · rw [if_neg hm]
      refine ih _ ?_
      simp [List.nodup_append, h, hm]

lemma mergeLines_append_only (acc new : List String) :
    ∃ t, mergeLines acc new = acc ++ t := by
  induction new generalizing acc with
  | nil => exact ⟨[], by simp [mergeLines]⟩
  | cons ln rest ih =>
    rw [mergeLines_cons]
    by_cases hm : ln ∈ acc
    · rw [if_pos hm]; exact ih acc
    · rw [if_neg hm]
      obtain ⟨t, ht⟩ := ih (acc ++ [ln])
      exact ⟨[ln] ++ t, by rw [ht, List.append_assoc]⟩

lemma updateFirstBlock_nodup (bs : List Block) (db : Block) (h : BlocksNodup bs) :
    BlocksNodup (updateFirstBlock bs db) := by
  induction bs with
  | nil =>
    intro b hb
    simp only [updateFirstBlock, List.mem_singleton] at hb
    subst hb
    exact mergeLines_nodup [] _ List.nodup_nil
  | cons b0 bs ih =>
    intro b hb
    unfold updateFirstBlock at hb
    by_cases e : b0.stage = db.stage
    · rw [if_pos e] at hb
      rcases List.mem_cons.mp hb with rfl | hb
      · exact mergeLines_nodup _ _ (h b0 (List.mem_cons_self _ _))
      · exact h b (List.mem_cons_of_mem _ hb)
    · rw [if_neg e] at hb
      rcases List.mem_cons.mp hb with rfl | hb
      · exact h b (List.mem_cons_self _ _)
      · exact ih (fun x hx => h x (List.mem_cons_of_mem _ hx)) b hb

lemma foldl_updateFirstBlock_nodup (dbs : List Block) (bs : List Block) (h : BlocksNodup bs) :
    BlocksNodup (dbs.foldl updateFirstBlock bs) := by
  induction dbs generalizing bs with
  | nil => exact h
  | cons db dbs ih => exact ih _ (updateFirstBlock_nodup bs db h)

lemma updLastPlayer_nodup (ps : List Player) (dp : Player) (h : PlayersNodup ps) :
    PlayersNodup (updLastPlayer ps dp) := by
  induction ps with
  | nil =>
    intro p hp
    simp only [updLastPlayer, List.mem_singleton] at hp
    subst hp
    exact foldl_updateFirstBlock_nodup _ _ (by intro b hb; simp at hb)
  | cons p0 ps ih =>
    intro p hp
    unfold updLastPlayer at hp
    by_cases e : p0.name = dp.name ∧ ∀ q ∈ ps, q.name ≠ dp.name
    · rw [if_pos e] at hp
      rcases List.mem_cons.mp hp with rfl | hp
      · exact foldl_updateFirstBlock_nodup _ _ (h p0 (List.mem_cons_self _ _))
      · exact h p (List.mem_cons_of_mem _ hp)
    · rw [if_neg e] at hp
      rcases List.mem_cons.mp hp with rfl | hp
      · exact h p (List.mem_cons_self _ _)
      · exact ih (fun x hx => h x (List.mem_cons_of_mem _ hx)) p hp

lemma foldl_updLastPlayer_nodup (dps : List Player) (ps : List Player) (h : PlayersNodup ps) :
    PlayersNodup (dps.foldl updLastPlayer ps) := by
  induction dps generalizing ps with
  | nil => exact h
  | cons dp dps ih => exact ih _ (updLastPlayer_nodup ps dp h)

lemma updLastSection_nodup (ss : List Section) (ds : Section) (h : StateNodup ss) :
    StateNodup (updLastSection ss ds) := by
  induction ss with
  | nil =>
    intro s hs
    simp only [updLastSection, List.mem_singleton] at hs
    subst hs
    exact foldl_updLastPlayer_nodup _ _ (by intro p hp; simp at hp)
  | cons s0 ss ih =>
    intro s hs
    unfold updLastSection at hs
    by_cases e : s0.category = ds.category ∧ ∀ t ∈ ss, t.category ≠ ds.category
    · rw [if_pos e] at hs
      rcases List.mem_cons.mp hs with rfl | hs
      · exact foldl_updLastPlayer_nodup _ _ (h s0 (List.mem_cons_self _ _))
      · exact h s (List.mem_cons_of_mem _ hs)
    · rw [if_neg e] at hs
      rcases List.mem_cons.mp hs with rfl | hs
      · exact h s (List.mem_cons_self _ _)
      · exact ih (fun x hx => h x (List.mem_cons_of_mem _ hx)) s hs

lemma merge_into_state_nodup (state batch : List Section) (h : StateNodup state) :
    StateNodup (merge_into_state state batch) := by
  unfold merge_into_state
  induction batch generalizing state with
  | nil => exact h
  | cons ds batch ih => exact ih _ (updLastSection_nodup state ds h)

/-- Claim C2: merging preserves per-block line uniqueness, so any
sequence of merges from the empty state keeps every stage block free of
duplicate round lines, and the merge only ever appends to a block's
line list, preserving insertion order. -/
theorem merge_preserves_line_uniqueness :
    (∀ state batch : List Section, StateNodup state →
      StateNodup (merge_into_state state batch)) ∧
    (∀ batches : List (List Section), StateNodup (batches.foldl merge_into_state [])) ∧
    (∀ acc new : List String, ∃ t, mergeLines acc new = acc ++ t) := by
  refine ⟨merge_into_state_nodup, fun batches => ?_, mergeLines_append_only⟩
  have h : ∀ s : List Section, StateNodup s → StateNodup (batches.foldl merge_into_state s) := by
    induction batches with
    | nil => exact fun s hs => hs
    | cons b bs ih => exact fun s hs => ih _ (merge_into_state_nodup s b hs)
  exact h [] (by intro s hs; simp at hs)

/-- Witness for C2: a concrete duplicate-free state stays duplicate
free after a merge. -/
theorem merge_preserves_line_uniqueness_witness :
    StateNodup [⟨"男子シングルス", [⟨"選手A", [⟨"本戦", ["1R 6-2 相手"]⟩]⟩]⟩] ∧
    StateNodup (merge_into_state
      [⟨"男子シングルス", [⟨"選手A", [⟨"本戦", ["1R 6-2 相手"]⟩]⟩]⟩]
      [⟨"男子シングルス", [⟨"選手A", [⟨"本戦", ["1R 6-2 相手", "2R 6-0 次"]⟩]⟩]⟩]) :=
  ⟨by decide, merge_preserves_line_uniqueness.1
    [⟨"男子シングルス", [⟨"選手A", [⟨"本戦", ["1R 6-2 相手"]⟩]⟩]⟩]
    [⟨"男子シングルス", [⟨"選手A", [⟨"本戦", ["1R 6-2 相手", "2R 6-0 次"]⟩]⟩]⟩] (by decide)⟩

/-!
Lemmas for C1: idempotence of the merge.  The proof follows the merge's
three levels.  At each level an update is absorbed once applied
(after-lemmas), absorption survives later updates (mono-lemmas), and a
fold of absorbed updates is the identity; the fix-lemmas recover
pointwise absorption from a fold that is the identity, via a size
measure that every update weakly increases.
-/

lemma mem_mergeLines_left {x : String} {acc : List String} (new : List String)
    (h : x ∈ acc) : x ∈ mergeLines acc new := by
  induction new generalizing acc with
  | nil => exact h
  | cons ln rest ih =>
    rw [mergeLines_cons]
    by_cases hm : ln ∈ acc
    · rw [if_pos hm]; exact ih h
    · rw [if_neg hm]; exact ih (List.mem_append_left _ h)

lemma mem_mergeLines_right {x : String} {new : List String} (acc : List String)
    (h : x ∈ new) : x ∈ mergeLines acc new := by
  induction new generalizing acc with
  | nil => simp at h
  | cons ln rest ih =>
    rw [mergeLines_cons]
    rcases List.mem_cons.mp h with rfl | h
    · by_cases hm : x ∈ acc
      · rw [if_pos hm]; exact mem_mergeLines_left rest hm
      · rw [if_neg hm]; exact mem_mergeLines_left rest (by simp)
    · by_cases hm : ln ∈ acc
      · rw [if_pos hm]; exact ih _ h
      · rw [if_neg hm]; exact ih _ h

lemma mergeLines_eq_self {acc new : List String} (h : ∀ x ∈ new, x ∈ acc) :
    mergeLines acc new = acc := by
  induction new generalizing acc with
  | nil => rfl
  | cons ln rest ih =>
    rw [mergeLines_cons, if_pos (h ln (by simp))]
    exact ih fun x hx => h x (List.mem_cons_of_mem _ hx)

lemma mergeLines_length_le (acc new : List String) :
    acc.length ≤ (mergeLines acc new).length := by
  induction new generalizing acc with
  | nil => exact Nat.le_refl _
  | cons ln rest ih =>
    rw [mergeLines_cons]
    by_cases hm : ln ∈ acc
    · rw [if_pos hm]; exact ih acc
    · rw [if_neg hm]
      calc acc.length ≤ (acc ++ [ln]).length := by simp
        _ ≤ _ := ih _

lemma sub_of_mergeLines_eq {acc new : List String} (h : mergeLines acc new = acc) :
    ∀ x ∈ new, x ∈ acc := by
  induction new generalizing acc with
  | nil => simp
  | cons ln rest ih =>
    rw [mergeLines_cons] at h
    by_cases hm : ln ∈ acc
    · rw [if_pos hm] at h
      intro x hx
      rcases List.mem_cons.mp hx with rfl | hx
      · exact hm
      · exact ih h x hx
    · rw [if_neg hm] at h
      exfalso
      have h1 := mergeLines_length_le (acc ++ [ln]) rest
      rw [h] at h1
      simp at h1

lemma mergeLines_dich (acc new : List String) :
    mergeLines acc new = acc ∨ acc.length < (mergeLines acc new).length := by
  induction new generalizing acc with
  | nil => exact Or.inl rfl
  | cons ln rest ih =>
    rw [mergeLines_cons]
    by_cases hm : ln ∈ acc
    · rw [if_pos hm]; exact ih acc
    · rw [if_neg hm]
      right
      calc acc.length < (acc ++ [ln]).length := by simp
        _ ≤ _ := mergeLines_length_le _ _

lemma mergeLines_idem (acc new : List String) :
    mergeLines (mergeLines acc new) new = mergeLines acc new :=
  mergeLines_eq_self fun x hx => mem_mergeLines_right acc hx

/-!
Block level.
-/

lemma updateFirstBlock_after (bs : List Block) (db : Block) :
    updateFirstBlock (updateFirstBlock bs db) db = updateFirstBlock bs db := by
  induction bs with
  | nil =>
    show updateFirstBlock [⟨db.stage, mergeLines [] db.lines⟩] db = _
    unfold updateFirstBlock
    rw [if_pos rfl, mergeLines_idem]
  | cons b bs ih =>
    by_cases e : b.stage = db.stage
    · rw [updateFirstBlock, if_pos e, updateFirstBlock, if_pos e, mergeLines_idem]
    · rw [updateFirstBlock, if_neg e, updateFirstBlock, if_neg e, ih]

lemma updateFirstBlock_mono {bs : List Block} {db : Block}
    (h : updateFirstBlock bs db = bs) (db2 : Block) :
    updateFirstBlock (updateFirstBlock bs db2) db = updateFirstBlock bs db2 := by
  induction bs with
  | nil => simp [updateFirstBlock] at h
  | cons b bs ih =>
    obtain ⟨bst, blns⟩ := b
    by_cases e : bst = db.stage
    · rw [updateFirstBlock, if_pos e] at h
      have hsub : ∀ x ∈ db.lines, x ∈ blns := by
        have : mergeLines blns db.lines = blns := by
          have := (List.cons.injEq _ _ _ _).mp h
          have h2 := (Block.mk.injEq _ _ _ _).mp this.1
          exact h2.2
        exact sub_of_mergeLines_eq this
      by_cases e2 : bst = db2.stage
      · rw [updateFirstBlock, if_pos e2, updateFirstBlock, if_pos e]
        rw [mergeLines_eq_self fun x hx => mem_mergeLines_left _ (hsub x hx)]
      · rw [updateFirstBlock, if_neg e2, updateFirstBlock, if_pos e,
          mergeLines_eq_self hsub]
    · rw [updateFirstBlock, if_neg e] at h
      have htail : updateFirstBlock bs db = bs := (List.cons.injEq _ _ _ _).mp h |>.2
      by_cases e2 : bst = db2.stage
      · rw [updateFirstBlock, if_pos e2, updateFirstBlock, if_neg e, htail]
      · rw [updateFirstBlock, if_neg e2, updateFirstBlock, if_neg e, ih htail]

lemma foldB_pres {bs : List Block} {db : Block} (dbs : List Block)
    (h : updateFirstBlock bs db = bs) :
    updateFirstBlock (dbs.foldl updateFirstBlock bs) db = dbs.foldl updateFirstBlock bs := by
  induction dbs generalizing bs with
  | nil => exact h
  | cons db2 dbs ih => exact ih (updateFirstBlock_mono h db2)

lemma foldB_after (dbs : List Block) (bs : List Block) :
    ∀ db ∈ dbs, updateFirstBlock (dbs.foldl updateFirstBlock bs) db =
      dbs.foldl updateFirstBlock bs := by
  induction dbs generalizing bs with
  | nil => simp
  | cons db2 dbs ih =>
    intro db hdb
    rcases List.mem_cons.mp hdb with rfl | hdb
    · exact foldB_pres dbs (updateFirstBlock_after bs db)
    · exact ih _ db hdb

lemma foldB_of_abs {dbs : List Block} {bs : List Block}
    (h : ∀ db ∈ dbs, updateFirstBlock bs db = bs) :
    dbs.foldl updateFirstBlock bs = bs := by
  induction dbs with
  | nil => rfl
  | cons db dbs ih =>
    show dbs.foldl updateFirstBlock (updateFirstBlock bs db) = bs
    rw [h db (by simp)]
    exact ih fun x hx => h x (List.mem_cons_of_mem _ hx)

lemma foldB_idem (dbs : List Block) (bs : List Block) :
    dbs.foldl updateFirstBlock (dbs.foldl updateFirstBlock bs) =
      dbs.foldl updateFirstBlock bs :=
  foldB_of_abs (foldB_after dbs bs)

lemma muB_cons (b : Block) (bs : List Block) :
    muB (b :: bs) = 1 + b.lines.length + muB bs := by
  simp [muB]
  omega

lemma muB_le (bs : List Block) (db : Block) : muB bs ≤ muB (updateFirstBlock bs db) := by
  induction bs with
  | nil => simp [muB, updateFirstBlock]
  | cons b bs ih =>
    by_cases e : b.stage = db.stage
    · rw [updateFirstBlock, if_pos e, muB_cons, muB_cons]
      have := mergeLines_length_le b.lines db.lines
      simp only []
      omega
    · rw [updateFirstBlock, if_neg e, muB_cons, muB_cons]
      omega

lemma updateFirstBlock_dich (bs : List Block) (db : Block) :
    updateFirstBlock bs db = bs ∨ muB bs < muB (updateFirstBlock bs db) := by
  induction bs with
  | nil =>
    right
    simp [muB, updateFirstBlock]
  | cons b bs ih =>
    obtain ⟨bst, blns⟩ := b
    by_cases e : bst = db.stage
    · rw [updateFirstBlock, if_pos e]
      rcases mergeLines_dich blns db.lines with hq | hq
      · left; rw [hq]
      · right
        rw [muB_cons, muB_cons]
        simp only []
        omega
    · rw [updateFirstBlock, if_neg e]
      rcases ih with hq | hq
      · left; rw [hq]
      · right
        rw [muB_cons, muB_cons]
        omega

lemma foldB_mu_le (dbs : List Block) (bs : List Block) :
    muB bs ≤ muB (dbs.foldl updateFirstBlock bs) := by
  induction dbs generalizing bs with
  | nil => exact Nat.le_refl _
  | cons db dbs ih => exact Nat.le_trans (muB_le bs db) (ih _)

lemma foldB_fix {dbs : List Block} {bs : List Block}
    (h : dbs.foldl updateFirstBlock bs = bs) :
    ∀ db ∈ dbs, updateFirstBlock bs db = bs := by
  induction dbs generalizing bs with
  | nil => simp
  | cons db2 dbs ih =>
    have h' : dbs.foldl updateFirstBlock (updateFirstBlock bs db2) = bs := h
    have heq : updateFirstBlock bs db2 = bs := by
      rcases updateFirstBlock_dich bs db2 with hq | hq
      · exact hq
      · exfalso
        have h1 := foldB_mu_le dbs (updateFirstBlock bs db2)
        rw [h'] at h1
        omega
    intro db hdb
    rcases List.mem_cons.mp hdb with rfl | hdb
    · exact heq
    · exact ih (by rw [heq] at h'; exact h') db hdb

lemma foldB_mono {dbs : List Block} {bs : List Block}
    (h : dbs.foldl updateFirstBlock bs = bs) (dbs2 : List Block) :
    dbs.foldl updateFirstBlock (dbs2.foldl updateFirstBlock bs) =
      dbs2.foldl updateFirstBlock bs :=
  foldB_of_abs fun db hdb => foldB_pres dbs2 (foldB_fix h db hdb)

lemma foldB_dich (dbs : List Block) (bs : List Block) :
    dbs.foldl updateFirstBlock bs = bs ∨ muB bs < muB (dbs.foldl updateFirstBlock bs) := by
  induction dbs generalizing bs with
  | nil => left; rfl
  | cons db dbs ih =>
    show dbs.foldl updateFirstBlock (updateFirstBlock bs db) = bs ∨
      muB bs < muB (dbs.foldl updateFirstBlock (updateFirstBlock bs db))
    rcases updateFirstBlock_dich bs db with hq | hq
    · rw [hq]
      exact ih bs
    · right
      calc muB bs < muB (updateFirstBlock bs db) := hq
        _ ≤ _ := foldB_mu_le dbs _

/-!
Player level.
-/

lemma updLastPlayer_nil (dp : Player) :
    updLastPlayer [] dp = [⟨dp.name, dp.blocks.foldl updateFirstBlock []⟩] := rfl

lemma updLastPlayer_cons (p : Player) (ps : List Player) (dp : Player) :
    updLastPlayer (p :: ps) dp =
      if p.name = dp.name ∧ ∀ q ∈ ps, q.name ≠ dp.name then
        ⟨p.name, dp.blocks.foldl updateFirstBlock p.blocks⟩ :: ps
      else p :: updLastPlayer ps dp := rfl

lemma updLastPlayer_name_mem (ps : List Player) (dp : Player) :
    ∃ q ∈ updLastPlayer ps dp, q.name = dp.name := by
  induction ps with
  | nil =>
    refine ⟨⟨dp.name, dp.blocks.foldl updateFirstBlock []⟩, ?_, rfl⟩
    simp [updLastPlayer]
  | cons p ps ih =>
    by_cases c1 : p.name = dp.name ∧ ∀ q ∈ ps, q.name ≠ dp.name
    · exact ⟨⟨p.name, dp.blocks.foldl updateFirstBlock p.blocks⟩,
        by rw [updLastPlayer, if_pos c1]; simp, c1.1⟩
    · obtain ⟨q, hq, hqn⟩ := ih
      exact ⟨q, by rw [updLastPlayer, if_neg c1]; exact List.mem_cons_of_mem _ hq, hqn⟩

lemma updLastPlayer_names (ps : List Player) (dp : Player) :
    ∀ q ∈ updLastPlayer ps dp, (∃ q0 ∈ ps, q.name = q0.name) ∨ q.name = dp.name := by
  induction ps with
  | nil =>
    intro q hq
    simp only [updLastPlayer, List.mem_singleton] at hq
    subst hq
    right
    rfl
  | cons p ps ih =>
    intro q hq
    by_cases c1 : p.name = dp.name ∧ ∀ q ∈ ps, q.name ≠ dp.name
    · rw [updLastPlayer, if_pos c1] at hq
      rcases List.mem_cons.mp hq with rfl | hq
      · exact Or.inl ⟨p, by simp, rfl⟩
      · exact Or.inl ⟨q, List.mem_cons_of_mem _ hq, rfl⟩
    · rw [updLastPlayer, if_neg c1] at hq
      rcases List.mem_cons.mp hq with rfl | hq
      · exact Or.inl ⟨q, by simp, rfl⟩
      · rcases ih q hq with ⟨q0, hq0, he⟩ | he
        · exact Or.inl ⟨q0, List.mem_cons_of_mem _ hq0, he⟩
        · exact Or.inr he

lemma updLastPlayer_names_pres (ps : List Player) (dp : Player) :
    ∀ q ∈ ps, ∃ q' ∈ updLastPlayer ps dp, q'.name = q.name := by
  induction ps with
  | nil => simp
  | cons p ps ih =>
    intro q hq
    by_cases c1 : p.name = dp.name ∧ ∀ q ∈ ps, q.name ≠ dp.name
    · rw [updLastPlayer, if_pos c1]
      rcases List.mem_cons.mp hq with rfl | hq
      · exact ⟨⟨q.name, dp.blocks.foldl updateFirstBlock q.blocks⟩, by simp, rfl⟩
      · exact ⟨q, List.mem_cons_of_mem _ hq, rfl⟩
    · rw [updLastPlayer, if_neg c1]
      rcases List.mem_cons.mp hq with rfl | hq
      · exact ⟨q, by simp, rfl⟩
      · obtain ⟨q', hq', he⟩ := ih q hq
        exact ⟨q', List.mem_cons_of_mem _ hq', he⟩

lemma updLastPlayer_after (ps : List Player) (dp : Player) :
    updLastPlayer (updLastPlayer ps dp) dp = updLastPlayer ps dp := by
  induction ps with
  | nil =>
    rw [updLastPlayer_nil]
    have hc : (⟨dp.name, dp.blocks.foldl updateFirstBlock []⟩ : Player).name = dp.name ∧
        ∀ q ∈ ([] : List Player), q.name ≠ dp.name := ⟨rfl, by simp⟩
    rw [updLastPlayer_cons, if_pos hc, foldB_idem]
  | cons p ps ih =>
    by_cases c1 : p.name = dp.name ∧ ∀ q ∈ ps, q.name ≠ dp.name
    · have hc : (⟨p.name, dp.blocks.foldl updateFirstBlock p.blocks⟩ : Player).name = dp.name ∧
        ∀ q ∈ ps, q.name ≠ dp.name := ⟨c1.1, c1.2⟩
      rw [updLastPlayer_cons, if_pos c1, updLastPlayer_cons, if_pos hc, foldB_idem]
    · have hne : ¬(p.name = dp.name ∧ ∀ q ∈ updLastPlayer ps dp, q.name ≠ dp.name) := by
        rintro ⟨h1, h2⟩
        obtain ⟨q, hq, hqn⟩ := updLastPlayer_name_mem ps dp
        exact h2 q hq hqn
      rw [updLastPlayer_cons, if_neg c1, updLastPlayer_cons, if_neg hne, ih]

lemma updLastPlayer_mono {ps : List Player} {dp : Player}
    (h : updLastPlayer ps dp = ps) (dp2 : Player) :
    updLastPlayer (updLastPlayer ps dp2) dp = updLastPlayer ps dp2 := by
  induction ps with
  | nil => simp [updLastPlayer_nil] at h
  | cons p ps ih =>
    obtain ⟨pn, pb⟩ := p
    by_cases c1 : (⟨pn, pb⟩ : Player).name = dp.name ∧ ∀ q ∈ ps, q.name ≠ dp.name
    · rw [updLastPlayer_cons, if_pos c1] at h
      have hfold : dp.blocks.foldl updateFirstBlock pb = pb := by
        have h1 := (List.cons.injEq _ _ _ _).mp h
        exact ((Player.mk.injEq _ _ _ _).mp h1.1).2
      by_cases c2 : (⟨pn, pb⟩ : Player).name = dp2.name ∧ ∀ q ∈ ps, q.name ≠ dp2.name
      · have hc : (⟨pn, dp2.blocks.foldl updateFirstBlock pb⟩ : Player).name = dp.name ∧
            ∀ q ∈ ps, q.name ≠ dp.name := ⟨c1.1, c1.2⟩
        rw [updLastPlayer_cons, if_pos c2, updLastPlayer, if_pos hc, foldB_mono hfold]
      · rw [updLastPlayer_cons, if_neg c2]
        have hcond : (⟨pn, pb⟩ : Player).name = dp.name ∧
            ∀ q ∈ updLastPlayer ps dp2, q.name ≠ dp.name := by
          refine ⟨c1.1, ?_⟩
          intro q hq
          rcases updLastPlayer_names ps dp2 q hq with ⟨q0, hq0, he⟩ | he
          · rw [he]; exact c1.2 q0 hq0
          · rw [he]
            intro hdd
            apply c2
            refine ⟨c1.1.trans hdd.symm, ?_⟩
            intro q' hq' hq'n
            exact c1.2 q' hq' (hq'n.trans hdd)
        rw [updLastPlayer_cons, if_pos hcond, hfold]
    · rw [updLastPlayer_cons, if_neg c1] at h
      have htail : updLastPlayer ps dp = ps := ((List.cons.injEq _ _ _ _).mp h).2
      by_cases c2 : (⟨pn, pb⟩ : Player).name = dp2.name ∧ ∀ q ∈ ps, q.name ≠ dp2.name
      · rw [updLastPlayer_cons, if_pos c2]
        have hne : ¬((⟨pn, dp2.blocks.foldl updateFirstBlock pb⟩ : Player).name = dp.name ∧
            ∀ q ∈ ps, q.name ≠ dp.name) := by
          intro hcc
          exact c1 ⟨hcc.1, hcc.2⟩
        rw [updLastPlayer_cons, if_neg hne, htail]
      · rw [updLastPlayer_cons, if_neg c2]
        have hne : ¬((⟨pn, pb⟩ : Player).name = dp.name ∧
            ∀ q ∈ updLastPlayer ps dp2, q.name ≠ dp.name) := by
          intro hcc
          apply c1
          refine ⟨hcc.1, ?_⟩
          intro q hq hqn
          obtain ⟨q', hq', he⟩ := updLastPlayer_names_pres ps dp2 q hq
          exact hcc.2 q' hq' (he.trans hqn)
        rw [updLastPlayer_cons, if_neg hne, ih htail]

lemma foldP_pres {ps : List Player} {dp : Player} (dps : List Player)
    (h : updLastPlayer ps dp = ps) :
    updLastPlayer (dps.foldl updLastPlayer ps) dp = dps.foldl updLastPlayer ps := by
  induction dps generalizing ps with
  | nil => exact h
  | cons dp2 dps ih => exact ih (updLastPlayer_mono h dp2)

lemma foldP_after (dps : List Player) (ps : List Player) :
    ∀ dp ∈ dps, updLastPlayer (dps.foldl updLastPlayer ps) dp =
      dps.foldl updLastPlayer ps := by
  induction dps generalizing ps with
  | nil => simp
  | cons dp2 dps ih =>
    intro dp hdp
    rcases List.mem_cons.mp hdp with rfl | hdp
    · exact foldP_pres dps (updLastPlayer_after ps dp)
    · exact ih _ dp hdp

lemma foldP_of_abs {dps : List Player} {ps : List Player}
    (h : ∀ dp ∈ dps, updLastPlayer ps dp = ps) :
    dps.foldl updLastPlayer ps = ps := by
  induction dps with
  | nil => rfl
  | cons dp dps ih =>
    show dps.foldl updLastPlayer (updLastPlayer ps dp) = ps
    rw [h dp (by simp)]
    exact ih fun x hx => h x (List.mem_cons_of_mem _ hx)

lemma foldP_idem (dps : List Player) (ps : List Player) :
    dps.foldl updLastPlayer (dps.foldl updLastPlayer ps) = dps.foldl updLastPlayer ps :=
  foldP_of_abs (foldP_after dps ps)

lemma muP_cons (p : Player) (ps : List Player) :
    muP (p :: ps) = 1 + muB p.blocks + muP ps := by
  simp [muP]
  omega

lemma muP_le (ps : List Player) (dp : Player) : muP ps ≤ muP (updLastPlayer ps dp) := by
  induction ps with
  | nil => simp [muP, updLastPlayer_nil]
  | cons p ps ih =>
    by_cases c1 : p.name = dp.name ∧ ∀ q ∈ ps, q.name ≠ dp.name
    · rw [updLastPlayer_cons, if_pos c1, muP_cons, muP_cons]
      have := foldB_mu_le dp.blocks p.blocks
      simp only []
      omega
    · rw [updLastPlayer_cons, if_neg c1, muP_cons, muP_cons]
      have := ih
      omega

lemma updLastPlayer_dich (ps : List Player) (dp : Player) :
    updLastPlayer ps dp = ps ∨ muP ps < muP (updLastPlayer ps dp) := by
  induction ps with
  | nil =>
    right
    simp [muP, updLastPlayer_nil]
  | cons p ps ih =>
    obtain ⟨pn, pb⟩ := p
    by_cases c1 : (⟨pn, pb⟩ : Player).name = dp.name ∧ ∀ q ∈ ps, q.name ≠ dp.name
    · rw [updLastPlayer_cons, if_pos c1]
      rcases foldB_dich dp.blocks pb with hq | hq
      · left; rw [hq]
      · right
        rw [muP_cons, muP_cons]
        simp only []
        omega
    · rw [updLastPlayer_cons, if_neg c1]
      rcases ih with hq | hq
      · left; rw [hq]
      · right
        rw [muP_cons, muP_cons]
        omega

lemma foldP_mu_le (dps : List Player) (ps : List Player) :
    muP ps ≤ muP (dps.foldl updLastPlayer ps) := by
  induction dps generalizing ps with
  | nil => exact Nat.le_refl _
  | cons dp dps ih => exact Nat.le_trans (muP_le ps dp) (ih _)

lemma foldP_fix {dps : List Player} {ps : List Player}
    (h : dps.foldl updLastPlayer ps = ps) :
    ∀ dp ∈ dps, updLastPlayer ps dp = ps := by
  induction dps generalizing ps with
  | nil => simp
  | cons dp2 dps ih =>
    have h' : dps.foldl updLastPlayer (updLastPlayer ps dp2) = ps := h
    have heq : updLastPlayer ps dp2 = ps := by
      rcases updLastPlayer_dich ps dp2 with hq | hq
      · exact hq
      · exfalso
        have h1 := foldP_mu_le dps (updLastPlayer ps dp2)
        rw [h'] at h1
        omega
    intro dp hdp
    rcases List.mem_cons.mp hdp with rfl | hdp
    · exact heq
    · exact ih (by rw [heq] at h'; exact h') dp hdp

lemma foldP_mono {dps : List Player} {ps : List Player}
    (h : dps.foldl updLastPlayer ps = ps) (dps2 : List Player) :
    dps.foldl updLastPlayer (dps2.foldl updLastPlayer ps) =
      dps2.foldl updLastPlayer ps :=
  foldP_of_abs fun dp hdp => foldP_pres dps2 (foldP_fix h dp hdp)

/-!
Section level.
-/

lemma updLastSection_nil (ds : Section) :
    updLastSection [] ds = [⟨ds.category, ds.players.foldl updLastPlayer []⟩] := rfl

lemma updLastSection_cons (s : Section) (ss : List Section) (ds : Section) :
    updLastSection (s :: ss) ds =
      if s.category = ds.category ∧ ∀ t ∈ ss, t.category ≠ ds.category then
        ⟨s.category, ds.players.foldl updLastPlayer s.players⟩ :: ss
      else s :: updLastSection ss ds := rfl

lemma updLastSection_cat_mem (ss : List Section) (ds : Section) :
    ∃ t ∈ updLastSection ss ds, t.category = ds.category := by
  induction ss with
  | nil =>
    refine ⟨⟨ds.category, ds.players.foldl updLastPlayer []⟩, ?_, rfl⟩
    simp [updLastSection_nil]
  | cons s ss ih =>
    by_cases c1 : s.category = ds.category ∧ ∀ t ∈ ss, t.category ≠ ds.category
    · exact ⟨⟨s.category, ds.players.foldl updLastPlayer s.players⟩,
        by rw [updLastSection_cons, if_pos c1]; simp, c1.1⟩
    · obtain ⟨t, ht, htc⟩ := ih
      exact ⟨t, by rw [updLastSection_cons, if_neg c1]; exact List.mem_cons_of_mem _ ht, htc⟩

lemma updLastSection_cats (ss : List Section) (ds : Section) :
    ∀ t ∈ updLastSection ss ds,
      (∃ t0 ∈ ss, t.category = t0.category) ∨ t.category = ds.category := by
  induction ss with
  | nil =>
    intro t ht
    simp only [updLastSection_nil, List.mem_singleton] at ht
    subst ht
    right
    rfl
  | cons s ss ih =>
    intro t ht
    by_cases c1 : s.category = ds.category ∧ ∀ t ∈ ss, t.category ≠ ds.category
    · rw [updLastSection_cons, if_pos c1] at ht
      rcases List.mem_cons.mp ht with rfl | ht
      · exact Or.inl ⟨s, by simp, rfl⟩
      · exact Or.inl ⟨t, List.mem_cons_of_mem _ ht, rfl⟩
    · rw [updLastSection_cons, if_neg c1] at ht
      rcases List.mem_cons.mp ht with rfl | ht
      · exact Or.inl ⟨t, by simp, rfl⟩
      · rcases ih t ht with ⟨t0, ht0, he⟩ | he
        · exact Or.inl ⟨t0, List.mem_cons_of_mem _ ht0, he⟩
        · exact Or.inr he

lemma updLastSection_cats_pres (ss : List Section) (ds : Section) :
    ∀ t ∈ ss, ∃ t' ∈ updLastSection ss ds, t'.category = t.category := by
  induction ss with
  | nil => simp
  | cons s ss ih =>
    intro t ht
    by_cases c1 : s.category = ds.category ∧ ∀ t ∈ ss, t.category ≠ ds.category
    · rw [updLastSection_cons, if_pos c1]
      rcases List.mem_cons.mp ht with rfl | ht
      · exact ⟨⟨t.category, ds.players.foldl updLastPlayer t.players⟩, by simp, rfl⟩
      · exact ⟨t, List.mem_cons_of_mem _ ht, rfl⟩
    · rw [updLastSection_cons, if_neg c1]
      rcases List.mem_cons.mp ht with rfl | ht
      · exact ⟨t, by simp, rfl⟩
      · obtain ⟨t', ht', he⟩ := ih t ht
        exact ⟨t', List.mem_cons_of_mem _ ht', he⟩

lemma updLastSection_after (ss : List Section) (ds : Section) :
    updLastSection (updLastSection ss ds) ds = updLastSection ss ds := by
  induction ss with
  | nil =>
    rw [updLastSection_nil]
    have hc : (⟨ds.category, ds.players.foldl updLastPlayer []⟩ : Section).category =
        ds.category ∧ ∀ t ∈ ([] : List Section), t.category ≠ ds.category := ⟨rfl, by simp⟩
    rw [updLastSection_cons, if_pos hc, foldP_idem]
  | cons s ss ih =>
    by_cases c1 : s.category = ds.category ∧ ∀ t ∈ ss, t.category ≠ ds.category
    · have hc : (⟨s.category, ds.players.foldl updLastPlayer s.players⟩ : Section).category =
          ds.category ∧ ∀ t ∈ ss, t.category ≠ ds.category := ⟨c1.1, c1.2⟩
      rw [updLastSection_cons, if_pos c1, updLastSection_cons, if_pos hc, foldP_idem]
    · have hne : ¬(s.category = ds.category ∧
          ∀ t ∈ updLastSection ss ds, t.category ≠ ds.category) := by
        rintro ⟨h1, h2⟩
        obtain ⟨t, ht, htc⟩ := updLastSection_cat_mem ss ds
        exact h2 t ht htc
      rw [updLastSection_cons, if_neg c1, updLastSection_cons, if_neg hne, ih]

lemma updLastSection_mono {ss : List Section} {ds : Section}
    (h : updLastSection ss ds = ss) (ds2 : Section) :
    updLastSection (updLastSection ss ds2) ds = updLastSection ss ds2 := by
  induction ss with
  | nil => simp [updLastSection_nil] at h
  | cons s ss ih =>
    obtain ⟨sc, sp⟩ := s
    by_cases c1 : (⟨sc, sp⟩ : Section).category = ds.category ∧
        ∀ t ∈ ss, t.category ≠ ds.category
    · rw [updLastSection_cons, if_pos c1] at h
      have hfold : ds.players.foldl updLastPlayer sp = sp := by
        have h1 := (List.cons.injEq _ _ _ _).mp h
        exact ((Section.mk.injEq _ _ _ _).mp h1.1).2
      by_cases c2 : (⟨sc, sp⟩ : Section).category = ds2.category ∧
          ∀ t ∈ ss, t.category ≠ ds2.category
      · have hc : (⟨sc, ds2.players.foldl updLastPlayer sp⟩ : Section).category =
            ds.category ∧ ∀ t ∈ ss, t.category ≠ ds.category := ⟨c1.1, c1.2⟩
        rw [updLastSection_cons, if_pos c2, updLastSection_cons, if_pos hc, foldP_mono hfold]
      · rw [updLastSection_cons, if_neg c2]
        have hcond : (⟨sc, sp⟩ : Section).category = ds.category ∧
            ∀ t ∈ updLastSection ss ds2, t.category ≠ ds.category := by
          refine ⟨c1.1, ?_⟩
          intro t ht
          rcases updLastSection_cats ss ds2 t ht with ⟨t0, ht0, he⟩ | he
          · rw [he]; exact c1.2 t0 ht0
          · rw [he]
            intro hdd
            apply c2
            refine ⟨c1.1.trans hdd.symm, ?_⟩
            intro t' ht' ht'c
            exact c1.2 t' ht' (ht'c.trans hdd)
        rw [updLastSection_cons, if_pos hcond, hfold]
    · rw [updLastSection_cons, if_neg c1] at h
      have htail : updLastSection ss ds = ss := ((List.cons.injEq _ _ _ _).mp h).2
      by_cases c2 : (⟨sc, sp⟩ : Section).category = ds2.category ∧
          ∀ t ∈ ss, t.category ≠ ds2.category
      · rw [updLastSection_cons, if_pos c2]
        have hne : ¬((⟨sc, ds2.players.foldl updLastPlayer sp⟩ : Section).category =
            ds.category ∧ ∀ t ∈ ss, t.category ≠ ds.category) := by
          intro hcc
          exact c1 ⟨hcc.1, hcc.2⟩
        rw [updLastSection_cons, if_neg hne, htail]
      · rw [updLastSection_cons, if_neg c2]
        have hne : ¬((⟨sc, sp⟩ : Section).category = ds.category ∧
            ∀ t ∈ updLastSection ss ds2, t.category ≠ ds.category) := by
          intro hcc
          apply c1
          refine ⟨hcc.1, ?_⟩
          intro t ht htc
          obtain ⟨t', ht', he⟩ := updLastSection_cats_pres ss ds2 t ht
          exact hcc.2 t' ht' (he.trans htc)
        rw [updLastSection_cons, if_neg hne, ih htail]

lemma foldS_pres {ss : List Section} {ds : Section} (dss : List Section)
    (h : updLastSection ss ds = ss) :
    updLastSection (dss.foldl updLastSection ss) ds = dss.foldl updLastSection ss := by
  induction dss generalizing ss with
  | nil => exact h
  | cons ds2 dss ih => exact ih (updLastSection_mono h ds2)

lemma foldS_after (dss : List Section) (ss : List Section) :
    ∀ ds ∈ dss, updLastSection (dss.foldl updLastSection ss) ds =
      dss.foldl updLastSection ss := by
  induction dss generalizing ss with
  | nil => simp
  | cons ds2 dss ih =>
    intro ds hds
    rcases List.mem_cons.mp hds with rfl | hds
    · exact foldS_pres dss (updLastSection_after ss ds)
    · exact ih _ ds hds

lemma foldS_of_abs {dss : List Section} {ss : List Section}
    (h : ∀ ds ∈ dss, updLastSection ss ds = ss) :
    dss.foldl updLastSection ss = ss := by
  induction dss with
  | nil => rfl
  | cons ds dss ih =>
    show dss.foldl updLastSection (updLastSection ss ds) = ss
    rw [h ds (by simp)]
    exact ih fun x hx => h x (List.mem_cons_of_mem _ hx)

/-- Claim C1: merging the same batch a second time is a no-op, for
every cumulative state and every batch. -/
theorem merge_into_state_idem (state batch : List Section) :
    merge_into_state (merge_into_state state batch) batch =
      merge_into_state state batch := by
  unfold merge_into_state
  exact foldS_of_abs (foldS_after batch state)

/-!
Lemmas for C3: with each gender's header appearing at most once, the
team parser equals the collecting parser followed by one close-out per
nonempty bucket.  The relation between the two runs is tracked with a
ghost flag recording which buckets have been opened.
-/

lemma TeamReport.get_set_same (r : TeamReport) (g : Gender) (b : TeamBlock) :
    (r.set g b).get g = b := by
  cases r
  cases g <;> rfl

lemma TeamReport.get_set_other (r : TeamReport) {g g' : Gender} {b : TeamBlock}
    (h : g ≠ g') : (r.set g b).get g' = r.get g' := by
  cases r
  cases g <;> cases g' <;> first | rfl | exact absurd rfl h

lemma TeamReport.ext_get {a b : TeamReport} (h : ∀ g, a.get g = b.get g) : a = b := by
  cases a
  cases b
  have h1 := h Gender.mens
  have h2 := h Gender.womens
  simp only [TeamReport.get] at h1 h2
  rw [h1, h2]

lemma append_final_empty : append_team_final_line ⟨"", []⟩ = ⟨"", []⟩ := rfl

lemma teamStep_blank (st : TeamState) : teamStep st [] = st := rfl

lemma collectStep_blank (st : TeamState) : collectStep st [] = st := rfl

lemma teamStep_header_none {ln : List Char} {g : Gender} {title : String}
    (st : TeamState) (hln : ln ≠ []) (hh : teamHeaderMatch ln = some (g, title))
    (hc : st.current = none) :
    teamStep st ln = ⟨st.out.set g { st.out.get g with title := title }, some g⟩ := by
  simp [teamStep, hln, hh, hc]

lemma teamStep_header_some {ln : List Char} {g g0 : Gender} {title : String}
    (st : TeamState) (hln : ln ≠ []) (hh : teamHeaderMatch ln = some (g, title))
    (hc : st.current = some g0) :
    teamStep st ln = ⟨(closeBucket st.out g0).set g
      { (closeBucket st.out g0).get g with title := title }, some g⟩ := by
  simp [teamStep, hln, hh, hc]

lemma collectStep_header {ln : List Char} {g : Gender} {title : String}
    (st : TeamState) (hln : ln ≠ []) (hh : teamHeaderMatch ln = some (g, title)) :
    collectStep st ln = ⟨st.out.set g { st.out.get g with title := title }, some g⟩ := by
  simp [collectStep, hln, hh]

lemma teamStep_rec_none {ln : List Char} (st : TeamState) (hln : ln ≠ [])
    (hh : teamHeaderMatch ln = none) (hc : st.current = none) :
    teamStep st ln = st := by
  simp [teamStep, hln, hh, hc]

lemma teamStep_rec_some {ln : List Char} {g0 : Gender} (st : TeamState) (hln : ln ≠ [])
    (hh : teamHeaderMatch ln = none) (hc : st.current = some g0) :
    teamStep st ln = addTeamRec st g0 (recOf ln) := by
  simp [teamStep, hln, hh, hc]

lemma collectStep_rec_none {ln : List Char} (st : TeamState) (hln : ln ≠ [])
    (hh : teamHeaderMatch ln = none) (hc : st.current = none) :
    collectStep st ln = st := by
  simp [collectStep, hln, hh, hc]

lemma collectStep_rec_some {ln : List Char} {g0 : Gender} (st : TeamState) (hln : ln ≠ [])
    (hh : teamHeaderMatch ln = none) (hc : st.current = some g0) :
    collectStep st ln = addTeamRec st g0 (recOf ln) := by
  simp [collectStep, hln, hh, hc]

lemma closeBuckets_get (r : TeamReport) (g : Gender) :
    (closeBuckets r).get g = append_team_final_line (r.get g) := by
  cases r
  cases g <;> rfl

lemma closeBucket_eq (out : TeamReport) (g : Gender) :
    closeBucket out g = out.set g (append_team_final_line (out.get g)) := rfl

/-- Core induction for the close-out characterisation: the real parser
and the collecting parser, run from states related by the ghost opened
flag, finish in the close-out relation provided no already-opened
bucket's header reappears. -/
lemma team_fold_close (rs : List (List Char)) :
    ∀ (P C : TeamState) (op : Gender → Bool),
    P.current = C.current →
    (∀ g, P.out.get g = if C.current = some g then C.out.get g
        else if op g = true then append_team_final_line (C.out.get g) else C.out.get g) →
    (∀ g, op g = false → C.out.get g = ⟨"", []⟩) →
    (∀ g, C.current = some g → op g = true) →
    (∀ g, rs.countP (isTeamHeaderOf g) ≤ if op g = true then 0 else 1) →
    finishTeam (rs.foldl teamStep P) = closeBuckets (rs.foldl collectStep C).out := by
  induction rs with
  | nil =>
    intro P C op h1 h2 h3 h4 _h5
    show finishTeam P = closeBuckets C.out
    cases hc : C.current with
    | none =>
      have hpc : P.current = none := h1.trans hc
      show (match P.current with
          | some g => closeBucket P.out g
          | none => P.out) = closeBuckets C.out
      rw [hpc]
      show P.out = closeBuckets C.out
      apply TeamReport.ext_get
      intro g
      rw [closeBuckets_get]
      have hg := h2 g
      rw [hc, if_neg (by simp)] at hg
      cases hop : op g with
      | true => rw [hop] at hg; simpa using hg
      | false =>
        rw [hop] at hg
        simp only [Bool.false_eq_true, if_false] at hg
        rw [hg, h3 g hop, append_final_empty]
    | some g0 =>
      have hpc : P.current = some g0 := h1.trans hc
      show (match P.current with
          | some g => closeBucket P.out g
          | none => P.out) = closeBuckets C.out
      rw [hpc]
      show closeBucket P.out g0 = closeBuckets C.out
      apply TeamReport.ext_get
      intro g
      rw [closeBuckets_get]
      by_cases hg0 : g0 = g
      · subst hg0
        rw [closeBucket_eq, TeamReport.get_set_same]
        have hg := h2 g0
        rw [hc, if_pos rfl] at hg
        rw [hg]
      · rw [closeBucket_eq, TeamReport.get_set_other _ hg0]
        have hg := h2 g
        rw [hc, if_neg (fun hco => hg0 (Option.some.inj hco))] at hg
        cases hop : op g with
        | true => rw [hop] at hg; simpa using hg
        | false =>
          rw [hop] at hg
          simp only [Bool.false_eq_true, if_false] at hg
          rw [hg, h3 g hop, append_final_empty]
  | cons ln rs ih =>
    intro P C op h1 h2 h3 h4 h5
    show finishTeam (rs.foldl teamStep (teamStep P ln)) =
      closeBuckets (rs.foldl collectStep (collectStep C ln)).out
    have h5w : ∀ g, rs.countP (isTeamHeaderOf g) ≤ if op g = true then 0 else 1 := by
      intro g
      refine le_trans ?_ (h5 g)
      rw [List.countP_cons]
      omega
    by_cases hln : ln = []
    · subst hln
      rw [teamStep_blank, collectStep_blank]
      exact ih P C op h1 h2 h3 h4 h5w
    cases hh : teamHeaderMatch ln with
    | some pr =>
      obtain ⟨g, title⟩ := pr
      have hcount : isTeamHeaderOf g ln = true := by simp [isTeamHeaderOf, hh]
      have hopg : op g = false := by
        cases hop : op g with
        | false => rfl
        | true =>
          exfalso
          have hx := h5 g
          rw [hop, if_pos rfl, List.countP_cons, hcount] at hx
          simp at hx
      have hCg : C.out.get g = ⟨"", []⟩ := h3 g hopg
      have hCcur : C.current ≠ some g := by
        intro he
        rw [h4 g he] at hopg
        exact Bool.noConfusion hopg
      rw [collectStep_header C hln hh]
      set op' : Gender → Bool := fun g' => decide (g' = g) || op g' with hop'
      have hop'g : op' g = true := by simp [hop']
      have hop'o : ∀ g', g' ≠ g → op' g' = op g' := by
        intro g' hne
        simp [hop', hne]
      have hnew5 : ∀ g', (rs.countP (isTeamHeaderOf g')) ≤ if op' g' = true then 0 else 1 := by
        intro g'
        by_cases he : g' = g
        · subst he
          rw [hop'g, if_pos rfl]
          have hx := h5 g'
          rw [hopg, List.countP_cons, hcount, if_pos rfl] at hx
          simp only [Bool.false_eq_true, if_false] at hx
          omega
        · rw [hop'o g' he]
          exact h5w g'
      cases hc : C.current with
      | none =>
        have hpc : P.current = none := h1.trans hc
        rw [teamStep_header_none P hln hh hpc]
        refine ih _ _ op' ?_ ?_ ?_ ?_ hnew5
        · rfl
        · intro g'
          dsimp only
          by_cases he : g' = g
          · subst he
            rw [if_pos rfl, TeamReport.get_set_same, TeamReport.get_set_same]
            have hg := h2 g'
            rw [hc, if_neg (by simp), hopg] at hg
            simp only [Bool.false_eq_true, if_false] at hg
            rw [hg]
          · rw [if_neg (fun hco => he (Option.some.inj hco).symm),
              TeamReport.get_set_other _ (fun e => he e.symm),
              TeamReport.get_set_other _ (fun e => he e.symm), hop'o g' he]
            have hg := h2 g'
            rw [hc, if_neg (by simp)] at hg
            exact hg
        · intro g' hop'f
          dsimp only at hop'f ⊢
          have hne : g' ≠ g := by
            intro he
            rw [he, hop'g] at hop'f
            exact Bool.noConfusion hop'f
          rw [TeamReport.get_set_other _ (fun e => hne e.symm)]
          exact h3 g' (by rw [← hop'o g' hne]; exact hop'f)
        · intro g' he
          dsimp only at he
          injection he with he
          exact he ▸ hop'g
      | some g0 =>
        have hpc : P.current = some g0 := h1.trans hc
        have hg0ne : g0 ≠ g := by
          intro he
          exact hCcur (by rw [← he]; exact hc)
        rw [teamStep_header_some P hln hh hpc]
        refine ih _ _ op' ?_ ?_ ?_ ?_ hnew5
        · rfl
        · intro g'
          dsimp only
          by_cases he : g' = g
          · subst he
            rw [if_pos rfl, TeamReport.get_set_same, TeamReport.get_set_same]
            have hg := h2 g'
            rw [hc, if_neg (fun hco => hg0ne (Option.some.inj hco)), hopg] at hg
            simp only [Bool.false_eq_true, if_false] at hg
            rw [closeBucket_eq, TeamReport.get_set_other _ hg0ne, hg]
          · rw [if_neg (fun hco => he (Option.some.inj hco).symm),
              TeamReport.get_set_other _ (fun e => he e.symm),
              TeamReport.get_set_other _ (fun e => he e.symm), hop'o g' he]
            by_cases he0 : g' = g0
            · subst he0
              rw [closeBucket_eq, TeamReport.get_set_same]
              have hg := h2 g'
              rw [hc, if_pos rfl] at hg
              rw [hg, h4 g' hc, if_pos rfl]
            · rw [closeBucket_eq, TeamReport.get_set_other _ (fun e => he0 e.symm)]
              have hg := h2 g'
              rw [hc, if_neg (fun hco => he0 (Option.some.inj hco).symm)] at hg
              exact hg
        · intro g' hop'f
          dsimp only at hop'f ⊢
          have hne : g' ≠ g := by
            intro he
            rw [he, hop'g] at hop'f
            exact Bool.noConfusion hop'f
          rw [TeamReport.get_set_other _ (fun e => hne e.symm)]
          exact h3 g' (by rw [← hop'o g' hne]; exact hop'f)
        · intro g' he
          dsimp only at he
          injection he with he
          exact he ▸ hop'g
    | none =>
      cases hc : C.current with
      | none =>
        have hpc : P.current = none := h1.trans hc
        rw [teamStep_rec_none P hln hh hpc, collectStep_rec_none C hln hh hc]
        exact ih P C op h1 h2 h3 h4 h5w
      | some g0 =>
        have hpc : P.current = some g0 := h1.trans hc
        rw [teamStep_rec_some P hln hh hpc, collectStep_rec_some C hln hh hc]
        have hPg0 : P.out.get g0 = C.out.get g0 := by
          have hg := h2 g0
          rw [hc, if_pos rfl] at hg
          exact hg
        refine ih _ _ op ?_ ?_ ?_ ?_ h5w
        · show P.current = C.current
          exact h1
        · intro g'
          show (P.out.set g0 _).get g' = if (addTeamRec C g0 (recOf ln)).current = some g'
              then (addTeamRec C g0 (recOf ln)).out.get g' else _
          dsimp only [addTeamRec]
          rw [hc]
          by_cases he0 : g' = g0
          · subst he0
            rw [if_pos rfl, TeamReport.get_set_same, TeamReport.get_set_same, hPg0]
          · rw [if_neg (fun hco => he0 (Option.some.inj hco).symm),
              TeamReport.get_set_other _ (fun e => he0 e.symm),
              TeamReport.get_set_other _ (fun e => he0 e.symm)]
            have hg := h2 g'
            rw [hc, if_neg (fun hco => he0 (Option.some.inj hco).symm)] at hg
            exact hg
        · intro g' hop'f
          have hne0 : g' ≠ g0 := by
            intro he
            rw [he] at hop'f
            rw [h4 g0 hc] at hop'f
            exact Bool.noConfusion hop'f
          show ((addTeamRec C g0 (recOf ln)).out).get g' = _
          dsimp only [addTeamRec]
          rw [TeamReport.get_set_other _ (fun e => hne0 e.symm)]
          exact h3 g' hop'f
        · intro g' he
          have he' : C.current = some g' := he
          rw [hc] at he'
          rw [← Option.some.inj he']
          exact h4 g0 hc

/-- Claim C3 as amended: when each gender's header appears at most
once, parse_team_report equals the collecting parser followed by one
close-out per bucket, i.e. the verdict note is appended exactly once to
each bucket holding at least one record, as its final record, after its
section is fully consumed; a bucket with no records gets no verdict. -/
theorem parse_team_report_close_out (text : String)
    (hm : genderHeaderCount Gender.mens text ≤ 1)
    (hw : genderHeaderCount Gender.womens text ≤ 1) :
    parse_team_report text = closeBuckets (collect_team_report text) := by
  show finishTeam ((prepTeamLines text).foldl teamStep initTeamState) =
    closeBuckets ((prepTeamLines text).foldl collectStep initTeamState).out
  apply team_fold_close (prepTeamLines text) initTeamState initTeamState (fun _ => false)
  · rfl
  · intro g
    rw [if_neg (by simp [initTeamState]), if_neg (by simp)]
  · intro g _
    cases g <;> rfl
  · intro g h
    exact Option.noConfusion h
  · intro g
    rw [if_neg (by simp)]
    cases g
    · exact hm
    · exact hw

/-- Witness for C3 as amended, on a two-section input. -/
theorem parse_team_report_close_out_witness :
    genderHeaderCount Gender.mens "【男子】A\nS1 甲 6-0/6-0 乙\n【女子】B\nメモ" ≤ 1 ∧
    genderHeaderCount Gender.womens "【男子】A\nS1 甲 6-0/6-0 乙\n【女子】B\nメモ" ≤ 1 ∧
    parse_team_report "【男子】A\nS1 甲 6-0/6-0 乙\n【女子】B\nメモ" =
      closeBuckets (collect_team_report "【男子】A\nS1 甲 6-0/6-0 乙\n【女子】B\nメモ") :=
  ⟨by decide, by decide,
    parse_team_report_close_out "【男子】A\nS1 甲 6-0/6-0 乙\n【女子】B\nメモ"
      (by decide) (by decide)⟩

/-- Counterexample to claim C3: a bucket whose section appears in the
input but contains no records receives no verdict note at all, and a
bucket whose header appears twice receives two verdict notes, one per
close-out. -/
theorem team_final_line_counterexample :
    parse_team_report "【男子】対抗戦" = ⟨⟨"対抗戦", []⟩, ⟨"", []⟩⟩ ∧
    (parse_team_report "【男子】A\nS1 甲 6-0/6-0 乙\n【男子】B\nS1 丙 0-6/0-6 丁").mens.lines =
      [TeamRec.mtch "S1" "甲" "6－0／6－0" "乙",
       TeamRec.note "計1-0を持ちまして、慶應義塾大学の勝ちが決定致しました。",
       TeamRec.mtch "S1" "丙" "0－6／0－6" "丁",
       TeamRec.note "計1-1の引き分けとなりました。"] := by
  decide
